import Mathlib

/-!
Verification development for the anzum.ai portfolio chat assistant.

The Python sources are embedded shallowly:

* `services/faq.py` — `FAQHandler.find_similar_question`, built on the standard
  library `difflib.SequenceMatcher.ratio` (embedded faithfully below, with
  `isjunk = None` and the `autojunk` popularity heuristic, exactly as CPython
  implements it; floats are modelled as exact rationals `ℚ`, which agrees with
  CPython on the ratio arithmetic `2*M/T`).
* `services/agentic_ai.py` — `AgenticAI` (`reset`, `_build_prompt`,
  `generate_response`).  The remote Gemini endpoint is an external
  collaborator; it is modelled as an oracle `service : Nat → String →
  RemoteResult` mapping a chat-session handle and a prompt to either a
  returned payload or a raised exception.  Session handles are modelled by
  a counter so that `start_chat` yields a handle distinct from all earlier
  ones, mirroring fresh object identity.
* `ui/chat.py` — `_process_user_query`, the transcript append, the
  "Start Over" handler and the overall-feedback radio.
* `ui/faq_view.py` — the category-tab ordering of `render_faq_tabs`.

Python dicts holding string keys and values are modelled as association
lists (`Dict`); `dict.get` is `List.lookup` with an optional default.
-/

/-- A Python dict with string keys and values (FAQ entries, chat exchanges). -/
abbrev Dict := List (String × String)

/-- Python `d.get(k)`: `none` when the key is absent. -/
def pyGet (d : Dict) (k : String) : Option String :=
  d.lookup k

/-- Python `d.get(k, default)`. -/
def pyGetD (d : Dict) (k : String) (dflt : String) : String :=
  (d.lookup k).getD dflt

/-- Python `str(x)` for an `Optional[str]` value: `None` prints as "None". -/
def pyStr (o : Option String) : String :=
  o.elim "None" (fun s => s)

/-- Python `str.lower()` (ASCII case folding, which is what the FAQ data uses). -/
def pyLower (s : String) : String :=
  ⟨s.data.map Char.toLower⟩

/-- Whitespace stripped by Python `str.strip()` (the ASCII whitespace class). -/
def isPySpace (c : Char) : Bool :=
  c = ' ' || c = '\t' || c = '\n' || c = '\x0d' || c = '\x0b' || c = '\x0c'

/-- Python `str.strip()` on a character list: drop whitespace at both ends. -/
def pyStripL (l : List Char) : List Char :=
  ((l.dropWhile isPySpace).reverse.dropWhile isPySpace).reverse

/-- Python `str.strip()`. -/
def pyStrip (s : String) : String :=
  ⟨pyStripL s.data⟩

namespace Difflib

/-- Indices of the occurrences of `c` in `b`, ascending — one bucket of the
`b2j` table that `SequenceMatcher.__chain_b` builds by enumerating `b`. -/
def positions (b : List Char) (c : Char) : List Nat :=
  (List.range b.length).filter (fun j => b.getD j ' ' = c)

/-- The `b2j` bucket after `__chain_b`'s autojunk purge: with `isjunk = None`
and `autojunk = True`, an element of a `b` of length at least 200 occurring
more than `len(b) // 100 + 1` times is "popular" and its bucket is deleted. -/
def b2j (b : List Char) (c : Char) : List Nat :=
  if 200 ≤ b.length ∧ b.length / 100 + 1 < (positions b c).length then []
  else positions b c

/-- One row of the `j2len` dynamic-programming dict of `find_longest_match`. -/
abbrev Row := List (Nat × Nat)

/-- Python `j2len.get(j, 0)`. -/
def rowGet (r : Row) (j : Nat) : Nat :=
  (r.lookup j).getD 0

/-- The running `(besti, bestj, bestsize)` triple of `find_longest_match`. -/
structure BestM where
  bi : Nat
  bj : Nat
  size : Nat
deriving DecidableEq, Repr

/-- The `k` computed for cell `(i, j)`: `j2len.get(j-1, 0) + 1`, where the
Python index `j - 1 = -1` (for `j = 0`) always misses the dict. -/
def cellVal (oldRow : Row) (j : Nat) : Nat :=
  (if j = 0 then 0 else rowGet oldRow (j - 1)) + 1

/-- The inner loop of `find_longest_match` over the (window-filtered) bucket
of `a[i]`: fill the new `j2len` row and update the best triple whenever
`k > bestsize`. -/
def innerLoop (i : Nat) (oldRow : Row) :
    List Nat → Row → BestM → Row × BestM
  | [], newRow, best => (newRow, best)
  | j :: js, newRow, best =>
    let k := cellVal oldRow j
    let best' := if best.size < k then BestM.mk (i + 1 - k) (j + 1 - k) k else best
    innerLoop i oldRow js ((j, k) :: newRow) best'

/-- The window-filtered bucket scanned at row `i`: Python skips `j < blo`
(`continue`) and stops at `j ≥ bhi` (`break`); as the bucket is ascending this
is a filter. -/
def rowIdx (a b : List Char) (blo bhi i : Nat) : List Nat :=
  (b2j b (a.getD i ' ')).filter (fun j => blo ≤ j ∧ j < bhi)

/-- The outer loop of `find_longest_match` over `i ∈ range(alo, ahi)`. -/
def outerLoop (a b : List Char) (blo bhi : Nat) :
    List Nat → Row → BestM → BestM
  | [], _, best => best
  | i :: is, row, best =>
    let (newRow, best') := innerLoop i row (rowIdx a b blo bhi i) [] best
    outerLoop a b blo bhi is newRow best'

/-- The first widening loop of `find_longest_match` (with `isjunk = None` the
junk test is vacuous): extend the best block to the left while the preceding
elements agree.  Each iteration decreases `besti` by one, so `besti` itself
bounds the iteration count exactly: once the counter hits zero the guard
`besti > alo` is false as well. -/
def extendLeftGo (a b : List Char) (alo blo : Nat) : Nat → BestM → BestM
  | 0, m => m
  | fuel + 1, m =>
    if alo < m.bi ∧ blo < m.bj ∧ a.getD (m.bi - 1) ' ' = b.getD (m.bj - 1) ' ' then
      extendLeftGo a b alo blo fuel (BestM.mk (m.bi - 1) (m.bj - 1) (m.size + 1))
    else m

/-- The left-extension while loop. -/
def extendLeft (a b : List Char) (alo blo : Nat) (m : BestM) : BestM :=
  extendLeftGo a b alo blo m.bi m

/-- The second widening loop: extend to the right while the following
elements agree.  Each iteration increases `bestsize`, so `ahi - (besti +
bestsize)` bounds the iteration count exactly. -/
def extendRightGo (a b : List Char) (ahi bhi : Nat) : Nat → BestM → BestM
  | 0, m => m
  | fuel + 1, m =>
    if m.bi + m.size < ahi ∧ m.bj + m.size < bhi ∧
        a.getD (m.bi + m.size) ' ' = b.getD (m.bj + m.size) ' ' then
      extendRightGo a b ahi bhi fuel (BestM.mk m.bi m.bj (m.size + 1))
    else m

/-- The right-extension while loop. -/
def extendRight (a b : List Char) (ahi bhi : Nat) (m : BestM) : BestM :=
  extendRightGo a b ahi bhi (ahi - (m.bi + m.size)) m

/-- `SequenceMatcher.find_longest_match` on the window
`a[alo:ahi]` × `b[blo:bhi]`, for `isjunk = None` (so `bjunk` is empty and the
two junk-widening loops of the CPython source are no-ops). -/
def find_longest_match (a b : List Char) (alo ahi blo bhi : Nat) : BestM :=
  let scanned := outerLoop a b blo bhi (List.range' alo (ahi - alo)) [] (BestM.mk alo blo 0)
  extendRight a b ahi bhi (extendLeft a b alo blo scanned)

/-- Total size of the matching blocks found by `get_matching_blocks` below a
window, i.e. the `matches` summed by `ratio`.  The CPython queue recursion
visits the sub-window left of the block only when both sides are non-empty,
likewise on the right; the final sort/collapse does not change the sum.
The recursion depth in `a`-window length shrinks by at least one per level,
so `ahi - alo` fuel is sufficient (`matchTotal` supplies it). -/
def matchTotalF (a b : List Char) : Nat → Nat → Nat → Nat → Nat → Nat
  | 0, _, _, _, _ => 0
  | fuel + 1, alo, ahi, blo, bhi =>
    let m := find_longest_match a b alo ahi blo bhi
    if m.size = 0 then 0
    else
      m.size +
        (if alo < m.bi ∧ blo < m.bj then matchTotalF a b fuel alo m.bi blo m.bj else 0) +
        (if m.bi + m.size < ahi ∧ m.bj + m.size < bhi then
          matchTotalF a b fuel (m.bi + m.size) ahi (m.bj + m.size) bhi else 0)

/-- The `matches` total over the full sequences. -/
def matchTotal (a b : List Char) : Nat :=
  matchTotalF a b a.length 0 a.length 0 b.length

/-- `SequenceMatcher(None, a, b).ratio() = 2*M / (len(a)+len(b))`, or `1.0`
for two empty sequences, as an exact rational (`mkRat` keeps the definition
kernel-evaluable; it equals the division, see `ratioQ_eq_div`). -/
def ratioQ (a b : List Char) : ℚ :=
  let t := a.length + b.length
  if t = 0 then 1 else mkRat (2 * (matchTotal a b : Int)) t

end Difflib

/-! ### Window bounds of the matcher -/

namespace Difflib

/-- Values recorded in a `j2len` row lie in the `b` window and are clipped at
the window edge (`v ≤ j + 1 - blo`) and by the number of contributing `a`
rows (`v ≤ bound`). -/
def RowOK (blo bhi bound : Nat) (row : Row) : Prop :=
  ∀ j v, row.lookup j = some v → blo ≤ j ∧ j < bhi ∧ v ≤ j + 1 - blo ∧ v ≤ bound

/-- The running best triple is the initial sentinel while no block was found,
and a genuine in-window block once `bestsize ≥ 1`. -/
def BestInv (alo ahi blo bhi : Nat) (m : BestM) : Prop :=
  (m.size = 0 → m = ⟨alo, blo, 0⟩) ∧
    (1 ≤ m.size → alo ≤ m.bi ∧ m.bi + m.size ≤ ahi ∧ blo ≤ m.bj ∧ m.bj + m.size ≤ bhi)

theorem lookup_cons_same {β : Type} (k : Nat) (v : β) (l : List (Nat × β)) :
    List.lookup k ((k, v) :: l) = some v := by
  simp [List.lookup]

theorem lookup_cons_diff {β : Type} {k k' : Nat} (v : β) (l : List (Nat × β)) (h : k' ≠ k) :
    List.lookup k' ((k, v) :: l) = List.lookup k' l := by
  have hb : (k' == k) = false := by
    simp [h]
  simp [List.lookup, hb]

theorem rowOK_nil (blo bhi bound : Nat) : RowOK blo bhi bound [] := by
  intro j v h
  simp [List.lookup] at h

theorem rowOK_mono {blo bhi bound bound' : Nat} {row : Row} (h : RowOK blo bhi bound row)
    (hb : bound ≤ bound') : RowOK blo bhi bound' row := by
  intro j v hj
  rcases h j v hj with ⟨h1, h2, h3, h4⟩
  exact ⟨h1, h2, h3, le_trans h4 hb⟩

theorem cellVal_le {blo bhi bound : Nat} {old : Row} (hold : RowOK blo bhi bound old)
    {j : Nat} (hj : blo ≤ j) :
    cellVal old j ≤ j + 1 - blo ∧ cellVal old j ≤ bound + 1 := by
  unfold cellVal
  rcases Nat.eq_zero_or_pos j with hj0 | hj0
  · subst hj0
    have h1 : (if (0 : Nat) = 0 then 0 else rowGet old (0 - 1)) = 0 := rfl
    rw [h1]
    omega
  · have hne : j ≠ 0 := by omega
    simp only [if_neg hne, rowGet]
    cases hlk : old.lookup (j - 1) with
    | none => simp only [Option.getD_none]; omega
    | some v =>
      rcases hold (j - 1) v hlk with ⟨h1, _, h3, h4⟩
      simp only [Option.getD_some]
      omega

theorem innerLoop_ok {alo ahi blo bhi : Nat} {i : Nat} (h1 : alo ≤ i) (h2 : i < ahi)
    {oldRow : Row} {bound : Nat} (hold : RowOK blo bhi bound oldRow) (hbd : bound ≤ i - alo) :
    ∀ (js : List Nat), (∀ j ∈ js, blo ≤ j ∧ j < bhi) →
      ∀ (newRow : Row), RowOK blo bhi (i + 1 - alo) newRow →
      ∀ (best : BestM), BestInv alo ahi blo bhi best →
      RowOK blo bhi (i + 1 - alo) (innerLoop i oldRow js newRow best).1 ∧
        BestInv alo ahi blo bhi (innerLoop i oldRow js newRow best).2 := by
  intro js
  induction js with
  | nil =>
    intro _ newRow hnew best hbest
    exact ⟨hnew, hbest⟩
  | cons j rest ih =>
    intro hjs newRow hnew best hbest
    have hjw : blo ≤ j ∧ j < bhi := hjs j (List.mem_cons_self j rest)
    have hk := cellVal_le hold hjw.1
    have hkb : cellVal oldRow j ≤ i + 1 - alo := by omega
    have hk1 : 1 ≤ cellVal oldRow j := Nat.le_add_left 1 _
    simp only [innerLoop]
    apply ih (fun j hj => hjs j (List.mem_cons_of_mem _ hj))
    · -- the extended row still satisfies the bounds
      intro j' v hv
      by_cases hjj : j' = j
      · subst hjj
        rw [lookup_cons_same] at hv
        cases hv
        exact ⟨hjw.1, hjw.2, hk.1, hkb⟩
      · rw [lookup_cons_diff _ _ hjj] at hv
        exact hnew j' v hv
    · -- the updated best satisfies the invariant
      by_cases hup : best.size < cellVal oldRow j
      · rw [if_pos hup]
        constructor
        · intro h0
          exact absurd h0 (by simp only; omega)
        · intro _
          refine ⟨?_, ?_, ?_, ?_⟩
          · show alo ≤ i + 1 - cellVal oldRow j
            omega
          · show i + 1 - cellVal oldRow j + cellVal oldRow j ≤ ahi
            omega
          · show blo ≤ j + 1 - cellVal oldRow j
            omega
          · show j + 1 - cellVal oldRow j + cellVal oldRow j ≤ bhi
            omega
      · rw [if_neg hup]; exact hbest

theorem outerLoop_ok (a b : List Char) {alo ahi blo bhi : Nat} :
    ∀ (is : List Nat), is.Pairwise (· < ·) → (∀ i ∈ is, alo ≤ i ∧ i < ahi) →
      ∀ (row : Row) (bound : Nat), RowOK blo bhi bound row → (∀ i ∈ is, bound ≤ i - alo) →
      ∀ (best : BestM), BestInv alo ahi blo bhi best →
      BestInv alo ahi blo bhi (outerLoop a b blo bhi is row best) := by
  intro is
  induction is with
  | nil =>
    intro _ _ row bound _ _ best hbest
    simpa [outerLoop] using hbest
  | cons i rest ih =>
    intro hpw hmem row bound hrow hbd best hbest
    have hi : alo ≤ i ∧ i < ahi := hmem i (List.mem_cons_self i rest)
    have hjs : ∀ j ∈ rowIdx a b blo bhi i, blo ≤ j ∧ j < bhi := by
      intro j hj
      simp only [rowIdx, List.mem_filter, decide_eq_true_eq] at hj
      exact hj.2
    have hbi : bound ≤ i - alo := hbd i (List.mem_cons_self i rest)
    have hinner := innerLoop_ok hi.1 hi.2 hrow hbi (rowIdx a b blo bhi i) hjs
      [] (rowOK_nil blo bhi _) best hbest
    simp only [outerLoop]
    have hpw' := (List.pairwise_cons.mp hpw)
    exact ih hpw'.2 (fun i' hi' => hmem i' (List.mem_cons_of_mem _ hi'))
      _ _ hinner.1 (fun i' hi' => by have := hpw'.1 i' hi'; omega) _ hinner.2

theorem extendLeftGo_inv (a b : List Char) {alo blo ahi bhi : Nat} :
    ∀ (fuel : Nat) (m : BestM), BestInv alo ahi blo bhi m →
      BestInv alo ahi blo bhi (extendLeftGo a b alo blo fuel m) := by
  intro fuel
  induction fuel with
  | zero => intro m hm; simpa [extendLeftGo] using hm
  | succ fuel ih =>
    intro m hm
    simp only [extendLeftGo]
    split
    · next hg =>
      apply ih
      rcases Nat.eq_zero_or_pos m.size with h0 | h0
      · have := hm.1 h0
        subst this
        exact absurd hg.1 (lt_irrefl alo)
      · have hb := hm.2 h0
        have hg1 := hg.1
        have hg2 := hg.2.1
        constructor
        · intro h; simp at h
        · intro _
          refine ⟨?_, ?_, ?_, ?_⟩
          · show alo ≤ m.bi - 1
            omega
          · show m.bi - 1 + (m.size + 1) ≤ ahi
            omega
          · show blo ≤ m.bj - 1
            omega
          · show m.bj - 1 + (m.size + 1) ≤ bhi
            omega
    · exact hm

theorem extendRightGo_inv (a b : List Char) {alo blo ahi bhi : Nat} :
    ∀ (fuel : Nat) (m : BestM), BestInv alo ahi blo bhi m →
      BestInv alo ahi blo bhi (extendRightGo a b ahi bhi fuel m) := by
  intro fuel
  induction fuel with
  | zero => intro m hm; simpa [extendRightGo] using hm
  | succ fuel ih =>
    intro m hm
    simp only [extendRightGo]
    split
    · next hg =>
      apply ih
      have hg1 := hg.1
      have hg2 := hg.2.1
      rcases Nat.eq_zero_or_pos m.size with h0 | h0
      · have hms := hm.1 h0
        have hbi : m.bi = alo := by rw [hms]
        have hbj : m.bj = blo := by rw [hms]
        constructor
        · intro h; simp at h
        · intro _
          refine ⟨?_, ?_, ?_, ?_⟩
          · show alo ≤ m.bi
            omega
          · show m.bi + (m.size + 1) ≤ ahi
            omega
          · show blo ≤ m.bj
            omega
          · show m.bj + (m.size + 1) ≤ bhi
            omega
      · have hb := hm.2 h0
        constructor
        · intro h; simp at h
        · intro _
          refine ⟨?_, ?_, ?_, ?_⟩
          · show alo ≤ m.bi
            exact hb.1
          · show m.bi + (m.size + 1) ≤ ahi
            omega
          · show blo ≤ m.bj
            exact hb.2.2.1
          · show m.bj + (m.size + 1) ≤ bhi
            omega
    · exact hm

theorem find_longest_match_inv (a b : List Char) (alo ahi blo bhi : Nat) :
    BestInv alo ahi blo bhi (find_longest_match a b alo ahi blo bhi) := by
  unfold find_longest_match extendLeft extendRight
  apply extendRightGo_inv
  apply extendLeftGo_inv
  apply outerLoop_ok a b (List.range' alo (ahi - alo))
  · exact List.pairwise_lt_range' alo (ahi - alo) 1
  · intro i hi
    rw [List.mem_range'_1] at hi
    omega
  · exact rowOK_nil blo bhi 0
  · intro i _; omega
  · constructor
    · intro _; rfl
    · intro h; simp at h

theorem matchTotalF_le_a (a b : List Char) :
    ∀ (fuel alo ahi blo bhi : Nat), matchTotalF a b fuel alo ahi blo bhi ≤ ahi - alo := by
  intro fuel
  induction fuel with
  | zero => intro alo ahi blo bhi; simp [matchTotalF]
  | succ fuel ih =>
    intro alo ahi blo bhi
    simp only [matchTotalF]
    split
    · omega
    · next hsz =>
      have hm := (find_longest_match_inv a b alo ahi blo bhi).2 (by omega)
      set m := find_longest_match a b alo ahi blo bhi with hmdef
      have hL : (if alo < m.bi ∧ blo < m.bj then matchTotalF a b fuel alo m.bi blo m.bj else 0)
          ≤ m.bi - alo := by
        split
        · exact ih alo m.bi blo m.bj
        · omega
      have hR : (if m.bi + m.size < ahi ∧ m.bj + m.size < bhi then
          matchTotalF a b fuel (m.bi + m.size) ahi (m.bj + m.size) bhi else 0)
          ≤ ahi - (m.bi + m.size) := by
        split
        · exact ih (m.bi + m.size) ahi (m.bj + m.size) bhi
        · omega
      omega

theorem matchTotalF_le_b (a b : List Char) :
    ∀ (fuel alo ahi blo bhi : Nat), matchTotalF a b fuel alo ahi blo bhi ≤ bhi - blo := by
  intro fuel
  induction fuel with
  | zero => intro alo ahi blo bhi; simp [matchTotalF]
  | succ fuel ih =>
    intro alo ahi blo bhi
    simp only [matchTotalF]
    split
    · omega
    · next hsz =>
      have hm := (find_longest_match_inv a b alo ahi blo bhi).2 (by omega)
      set m := find_longest_match a b alo ahi blo bhi with hmdef
      have hL : (if alo < m.bi ∧ blo < m.bj then matchTotalF a b fuel alo m.bi blo m.bj else 0)
          ≤ m.bj - blo := by
        split
        · exact ih alo m.bi blo m.bj
        · omega
      have hR : (if m.bi + m.size < ahi ∧ m.bj + m.size < bhi then
          matchTotalF a b fuel (m.bi + m.size) ahi (m.bj + m.size) bhi else 0)
          ≤ bhi - (m.bj + m.size) := by
        split
        · exact ih (m.bi + m.size) ahi (m.bj + m.size) bhi
        · omega
      omega

theorem matchTotal_le_a (a b : List Char) : matchTotal a b ≤ a.length :=
  le_trans (matchTotalF_le_a a b a.length 0 a.length 0 b.length) (by omega)

theorem matchTotal_le_b (a b : List Char) : matchTotal a b ≤ b.length :=
  le_trans (matchTotalF_le_b a b a.length 0 a.length 0 b.length) (by omega)

/-- The ratio, written as real division. -/
theorem ratioQ_eq_div (a b : List Char) :
    ratioQ a b = if a.length + b.length = 0 then 1
      else (2 * (matchTotal a b : ℚ)) / ((a.length + b.length : Nat) : ℚ) := by
  simp only [ratioQ]
  split
  · rfl
  · rw [Rat.mkRat_eq_divInt, Rat.divInt_eq_div]
    push_cast
    ring

theorem ratioQ_nonneg (a b : List Char) : 0 ≤ ratioQ a b := by
  rw [ratioQ_eq_div]
  split
  · norm_num
  · positivity

theorem ratioQ_le_one (a b : List Char) : ratioQ a b ≤ 1 := by
  rw [ratioQ_eq_div]
  split
  · exact le_refl 1
  · next ht =>
    have htpos : (0 : ℚ) < ((a.length + b.length : Nat) : ℚ) := by
      have : 0 < a.length + b.length := Nat.pos_of_ne_zero ht
      exact_mod_cast this
    rw [div_le_one htpos]
    have hle : 2 * matchTotal a b ≤ a.length + b.length := by
      have h1 := matchTotal_le_a a b
      have h2 := matchTotal_le_b a b
      omega
    calc 2 * (matchTotal a b : ℚ) = ((2 * matchTotal a b : Nat) : ℚ) := by push_cast; ring
      _ ≤ ((a.length + b.length : Nat) : ℚ) := by exact_mod_cast hle

/-! ### The matcher on two identical sequences

For `a = b = s` (any length, autojunk included) the scan's best block is
always diagonal (`besti = bestj`), because an off-diagonal cell value never
strictly exceeds the best size: every tracked run also occurs on the
diagonal, earlier in the scan order.  The two widening loops then extend a
diagonal block to the whole sequence, so the ratio of a sequence with itself
is `1`. -/

theorem mem_positions {b : List Char} {c : Char} {j : Nat} :
    j ∈ positions b c ↔ j < b.length ∧ b.getD j ' ' = c := by
  simp [positions, List.mem_filter, List.mem_range]

theorem positions_pairwise (b : List Char) (c : Char) :
    (positions b c).Pairwise (· < ·) :=
  (List.pairwise_lt_range b.length).filter _

theorem mem_b2j {b : List Char} {c : Char} {j : Nat} (h : j ∈ b2j b c) :
    j < b.length ∧ b.getD j ' ' = c := by
  unfold b2j at h
  split at h
  · simp at h
  · exact mem_positions.mp h

theorem b2j_pairwise (b : List Char) (c : Char) : (b2j b c).Pairwise (· < ·) := by
  unfold b2j
  split
  · exact List.Pairwise.nil
  · exact positions_pairwise b c

theorem self_mem_b2j {b : List Char} {i : Nat} (hi : i < b.length)
    (hne : b2j b (b.getD i ' ') ≠ []) : i ∈ b2j b (b.getD i ' ') := by
  unfold b2j
  unfold b2j at hne
  split
  · next hp => rw [if_pos hp] at hne; simp at hne
  · exact mem_positions.mpr ⟨hi, rfl⟩

theorem rowIdx_pairwise (a b : List Char) (blo bhi i : Nat) :
    (rowIdx a b blo bhi i).Pairwise (· < ·) :=
  (b2j_pairwise b (a.getD i ' ')).filter _

theorem mem_rowIdx {a b : List Char} {blo bhi i j : Nat} (h : j ∈ rowIdx a b blo bhi i) :
    j ∈ b2j b (a.getD i ' ') := by
  simp only [rowIdx, List.mem_filter] at h
  exact h.1

/-- The value the `j2len` DP takes at the diagonal cell `(j, j)` when
matching `s` against itself: the length of the run of non-purged characters
ending at `j`. -/
def diagD (s : List Char) : Nat → Nat
  | 0 => if b2j s (s.getD 0 ' ') = [] then 0 else 1
  | j + 1 => if b2j s (s.getD (j + 1) ' ') = [] then 0 else diagD s j + 1

theorem diagD_pos {s : List Char} {j : Nat} (h : b2j s (s.getD j ' ') ≠ []) :
    1 ≤ diagD s j := by
  cases j with
  | zero => simp only [diagD]; rw [if_neg h]
  | succ j => simp only [diagD]; rw [if_neg h]; omega

theorem diagD_succ {s : List Char} {j : Nat} (h1 : 1 ≤ j)
    (h : b2j s (s.getD j ' ') ≠ []) : diagD s j = diagD s (j - 1) + 1 := by
  cases j with
  | zero => omega
  | succ j => simp only [diagD]; rw [if_neg h, Nat.add_sub_cancel]

/-- On identical sequences a cell value is bounded by the diagonal value at
`min j i`: hypotheses `H1`/`H2` describe the previous row (rows `0 .. i-1`
already processed; `H1` is vacuous for `i = 0`, where the old row is empty). -/
theorem cellVal_le_diag {s : List Char} {i : Nat} {oldRow : Row}
    (H1 : ∀ j v, oldRow.lookup j = some v → 1 ≤ i ∧ v ≤ diagD s (min j (i - 1)))
    {j : Nat} (hj : j ∈ b2j s (s.getD i ' ')) :
    cellVal oldRow j ≤ diagD s (min j i) := by
  have hbne : b2j s (s.getD i ' ') ≠ [] := List.ne_nil_of_mem hj
  have hji := mem_b2j hj
  have hrare : b2j s (s.getD (min j i) ' ') ≠ [] := by
    rcases Nat.le_total j i with hle | hle
    · rw [Nat.min_eq_left hle, hji.2]; exact hbne
    · rw [Nat.min_eq_right hle]; exact hbne
  unfold cellVal
  rcases Nat.eq_zero_or_pos j with hj0 | hj0
  · subst hj0
    have h1 : (if (0 : Nat) = 0 then 0 else rowGet oldRow (0 - 1)) = 0 := rfl
    rw [h1]
    have hmin : min 0 i = 0 := by omega
    rw [hmin] at hrare ⊢
    have := diagD_pos hrare
    omega
  · have hne : j ≠ 0 := by omega
    simp only [if_neg hne, rowGet]
    cases hlk : oldRow.lookup (j - 1) with
    | none =>
      simp only [Option.getD_none]
      have := diagD_pos hrare
      omega
    | some v =>
      simp only [Option.getD_some]
      rcases H1 (j - 1) v hlk with ⟨hi1, hv⟩
      have hmin : 1 ≤ min j i := by omega
      have hstep := diagD_succ hmin hrare
      have hmm : min j i - 1 = min (j - 1) (i - 1) := by omega
      rw [hmm] at hstep
      omega

/-- On identical sequences the diagonal cell value is exact. -/
theorem cellVal_diag_eq {s : List Char} {i : Nat} {oldRow : Row}
    (H2 : 1 ≤ i → rowGet oldRow (i - 1) = diagD s (i - 1))
    (hrare : b2j s (s.getD i ' ') ≠ []) :
    cellVal oldRow i = diagD s i := by
  unfold cellVal
  rcases Nat.eq_zero_or_pos i with hi0 | hi0
  · subst hi0
    have h1 : (if (0 : Nat) = 0 then 0 else rowGet oldRow (0 - 1)) = 0 := rfl
    rw [h1]
    simp only [diagD]
    rw [if_neg hrare]
  · have hne : i ≠ 0 := by omega
    simp only [if_neg hne]
    rw [H2 hi0, diagD_succ hi0 hrare]

/-- The row produced by `innerLoop` from an empty accumulator, as a lookup
table: exactly the scanned cells. -/
theorem innerLoop_row_lookup (i : Nat) (oldRow : Row) :
    ∀ (js : List Nat), js.Pairwise (· < ·) →
      ∀ (newRow : Row) (best : BestM) (j : Nat),
      ((innerLoop i oldRow js newRow best).1).lookup j =
        if j ∈ js then some (cellVal oldRow j) else newRow.lookup j := by
  intro js
  induction js with
  | nil =>
    intro _ newRow best j
    simp [innerLoop]
  | cons j0 rest ih =>
    intro hpw newRow best j
    have hpw' := List.pairwise_cons.mp hpw
    simp only [innerLoop]
    rw [ih hpw'.2]
    by_cases hj : j = j0
    · subst hj
      have hnr : j ∉ rest := fun h => lt_irrefl j (hpw'.1 j h)
      rw [if_neg hnr, lookup_cons_same, if_pos (List.mem_cons_self j rest)]
    · by_cases hr : j ∈ rest
      · rw [if_pos hr, if_pos (List.mem_cons_of_mem _ hr)]
      · rw [if_neg hr, lookup_cons_diff _ _ hj,
          if_neg (by simp [List.mem_cons, hj, hr])]

/-- On identical sequences the scan never records an off-diagonal best:
processing one row keeps the best diagonal and makes its size dominate all
diagonal values up to the row index. -/
theorem innerLoop_id {s : List Char} {i : Nat} {oldRow : Row}
    (H1 : ∀ j v, oldRow.lookup j = some v → 1 ≤ i ∧ v ≤ diagD s (min j (i - 1)))
    (H2 : 1 ≤ i → rowGet oldRow (i - 1) = diagD s (i - 1)) :
    ∀ (js : List Nat), js.Pairwise (· < ·) →
      (∀ j ∈ js, j ∈ b2j s (s.getD i ' ')) →
      ∀ (best : BestM) (newRow : Row),
      best.bi = best.bj → (∀ t, t < i → diagD s t ≤ best.size) →
      (i ∈ js ∨ diagD s i ≤ best.size) →
      ((innerLoop i oldRow js newRow best).2.bi = (innerLoop i oldRow js newRow best).2.bj ∧
        ∀ t, t < i + 1 → diagD s t ≤ (innerLoop i oldRow js newRow best).2.size) := by
  intro js
  induction js with
  | nil =>
    intro _ _ best newRow hdiag hdom hflag
    simp only [innerLoop]
    refine ⟨hdiag, fun t ht => ?_⟩
    rcases Nat.lt_succ_iff_lt_or_eq.mp ht with h | h
    · exact hdom t h
    · subst h
      rcases hflag with h | h
      · simp at h
      · exact h
  | cons j rest ih =>
    intro hpw hmem best newRow hdiag hdom hflag
    have hpw' := List.pairwise_cons.mp hpw
    have hjb : j ∈ b2j s (s.getD i ' ') := hmem j (List.mem_cons_self j rest)
    have hbne : b2j s (s.getD i ' ') ≠ [] := List.ne_nil_of_mem hjb
    have hkle : cellVal oldRow j ≤ diagD s (min j i) := cellVal_le_diag H1 hjb
    simp only [innerLoop]
    rcases Nat.lt_trichotomy j i with hji | hji | hji
    · -- an off-diagonal cell left of the diagonal: dominated, no update
      have hnup : ¬ best.size < cellVal oldRow j := by
        have : min j i = j := by omega
        rw [this] at hkle
        have := hdom j hji
        omega
      rw [if_neg hnup]
      apply ih hpw'.2 (fun x hx => hmem x (List.mem_cons_of_mem _ hx)) _ _ hdiag hdom
      rcases hflag with h | h
      · rcases List.mem_cons.mp h with h' | h'
        · omega
        · exact Or.inl h'
      · exact Or.inr h
    · -- the diagonal cell: an update keeps the best diagonal
      subst hji
      have hkeq : cellVal oldRow j = diagD s j := cellVal_diag_eq H2 hbne
      by_cases hup : best.size < cellVal oldRow j
      · rw [if_pos hup]
        apply ih hpw'.2 (fun x hx => hmem x (List.mem_cons_of_mem _ hx))
        · rfl
        · intro t ht
          show diagD s t ≤ cellVal oldRow j
          have := hdom t ht
          omega
        · refine Or.inr ?_
          show diagD s j ≤ cellVal oldRow j
          omega
      · rw [if_neg hup]
        apply ih hpw'.2 (fun x hx => hmem x (List.mem_cons_of_mem _ hx)) _ _ hdiag hdom
        refine Or.inr ?_
        omega
    · -- right of the diagonal: the flag already dominates the cell
      have hdomi : diagD s i ≤ best.size := by
        rcases hflag with h | h
        · rcases List.mem_cons.mp h with h' | h'
          · omega
          · exact absurd hji (by have := hpw'.1 i h'; omega)
        · exact h
      have hnup : ¬ best.size < cellVal oldRow j := by
        have : min j i = i := by omega
        rw [this] at hkle
        omega
      rw [if_neg hnup]
      apply ih hpw'.2 (fun x hx => hmem x (List.mem_cons_of_mem _ hx)) _ _ hdiag hdom
      exact Or.inr hdomi

theorem diagD_purged {s : List Char} {j : Nat} (h : b2j s (s.getD j ' ') = []) :
    diagD s j = 0 := by
  cases j with
  | zero => simp only [diagD]; rw [if_pos h]
  | succ j => simp only [diagD]; rw [if_pos h]

theorem rowIdx_self_mem {s : List Char} {c : Nat} (hc : c < s.length)
    (hne : b2j s (s.getD c ' ') ≠ []) : c ∈ rowIdx s s 0 s.length c := by
  apply List.mem_filter.mpr
  refine ⟨self_mem_b2j hc hne, ?_⟩
  simp only [decide_eq_true_eq]
  omega

/-- Processing the remaining rows of the self-match scan keeps the row and
best invariants; at the end the best block is diagonal and its size
dominates every diagonal value. -/
theorem outerLoop_id (s : List Char) :
    ∀ (m c : Nat), c + m = s.length →
      ∀ (row : Row) (best : BestM),
      (∀ j v, row.lookup j = some v → 1 ≤ c ∧ v ≤ diagD s (min j (c - 1))) →
      (1 ≤ c → rowGet row (c - 1) = diagD s (c - 1)) →
      best.bi = best.bj → (∀ t, t < c → diagD s t ≤ best.size) →
      ((outerLoop s s 0 s.length (List.range' c m) row best).bi
          = (outerLoop s s 0 s.length (List.range' c m) row best).bj ∧
        ∀ t, t < s.length →
          diagD s t ≤ (outerLoop s s 0 s.length (List.range' c m) row best).size) := by
  intro m
  induction m with
  | zero =>
    intro c hc row best _ _ hdiag hdom
    simp only [List.range', outerLoop]
    exact ⟨hdiag, fun t ht => hdom t (by omega)⟩
  | succ m ih =>
    intro c hc row best hH1 hH2 hdiag hdom
    have hclen : c < s.length := by omega
    simp only [List.range', outerLoop]
    have hpw := rowIdx_pairwise s s 0 s.length c
    have hmem : ∀ j ∈ rowIdx s s 0 s.length c, j ∈ b2j s (s.getD c ' ') :=
      fun j hj => mem_rowIdx hj
    have hflag : c ∈ rowIdx s s 0 s.length c ∨ diagD s c ≤ best.size := by
      by_cases hrc : b2j s (s.getD c ' ') = []
      · exact Or.inr (by rw [diagD_purged hrc]; omega)
      · exact Or.inl (rowIdx_self_mem hclen hrc)
    have hbest' := innerLoop_id hH1 hH2 (rowIdx s s 0 s.length c) hpw hmem best []
      hdiag hdom hflag
    have hrow' := innerLoop_row_lookup c row (rowIdx s s 0 s.length c) hpw [] best
    apply ih (c + 1) (by omega)
    · -- row invariant for the next row index
      intro j v hv
      rw [hrow' j] at hv
      split at hv
      · next hjin =>
        cases hv
        refine ⟨by omega, ?_⟩
        have := cellVal_le_diag hH1 (hmem j hjin)
        simpa using this
      · simp [List.lookup] at hv
    · -- diagonal exactness for the next row index
      intro _
      show rowGet (innerLoop c row (rowIdx s s 0 s.length c) [] best).1 (c + 1 - 1)
        = diagD s (c + 1 - 1)
      have hcc : c + 1 - 1 = c := by omega
      rw [hcc, rowGet, hrow' c]
      by_cases hrc : b2j s (s.getD c ' ') = []
      · have hempty : rowIdx s s 0 s.length c = [] := by
          unfold rowIdx
          rw [hrc]
          rfl
        rw [hempty]
        simp [List.lookup, diagD_purged hrc]
      · rw [if_pos (rowIdx_self_mem hclen hrc)]
        simp [cellVal_diag_eq hH2 hrc]
    · exact hbest'.1
    · intro t ht
      exact hbest'.2 t (by omega)

theorem extendLeftGo_step (a b : List Char) (alo blo fuel : Nat) (m : BestM)
    (h : alo < m.bi ∧ blo < m.bj ∧ a.getD (m.bi - 1) ' ' = b.getD (m.bj - 1) ' ') :
    extendLeftGo a b alo blo (fuel + 1) m =
      extendLeftGo a b alo blo fuel ⟨m.bi - 1, m.bj - 1, m.size + 1⟩ := by
  simp only [extendLeftGo]
  rw [if_pos h]

theorem extendRightGo_step (a b : List Char) (ahi bhi fuel : Nat) (m : BestM)
    (h : m.bi + m.size < ahi ∧ m.bj + m.size < bhi ∧
      a.getD (m.bi + m.size) ' ' = b.getD (m.bj + m.size) ' ') :
    extendRightGo a b ahi bhi (fuel + 1) m =
      extendRightGo a b ahi bhi fuel ⟨m.bi, m.bj, m.size + 1⟩ := by
  simp only [extendRightGo]
  rw [if_pos h]

theorem extendLeftGo_diag (s : List Char) :
    ∀ (d k : Nat), extendLeftGo s s 0 0 d ⟨d, d, k⟩ = ⟨0, 0, k + d⟩ := by
  intro d
  induction d with
  | zero =>
    intro k
    simp [extendLeftGo]
  | succ d ih =>
    intro k
    rw [extendLeftGo_step s s 0 0 d ⟨d + 1, d + 1, k⟩ ⟨Nat.succ_pos d, Nat.succ_pos d, rfl⟩]
    show extendLeftGo s s 0 0 d ⟨d, d, k + 1⟩ = ⟨0, 0, k + (d + 1)⟩
    rw [ih (k + 1)]
    have : k + 1 + d = k + (d + 1) := by omega
    rw [this]

theorem extendRightGo_diag (s : List Char) (n : Nat) :
    ∀ (f sz : Nat), f = n - sz → sz ≤ n →
      extendRightGo s s n n f ⟨0, 0, sz⟩ = ⟨0, 0, n⟩ := by
  intro f
  induction f with
  | zero =>
    intro sz hf hle
    have : sz = n := by omega
    subst this
    simp [extendRightGo]
  | succ f ih =>
    intro sz hf hle
    have hsz : sz < n := by omega
    rw [extendRightGo_step s s n n f ⟨0, 0, sz⟩
      ⟨by simpa using hsz, by simpa using hsz, rfl⟩]
    show extendRightGo s s n n f ⟨0, 0, sz + 1⟩ = ⟨0, 0, n⟩
    exact ih (sz + 1) (by omega) (by omega)

/-- Both widening loops together, applied to a diagonal in-window block of a
self match, produce the full diagonal. -/
theorem extend_diag (s : List Char) (m : BestM) (hd : m.bi = m.bj)
    (hb : m.bi + m.size ≤ s.length) :
    extendRight s s s.length s.length (extendLeft s s 0 0 m) = ⟨0, 0, s.length⟩ := by
  obtain ⟨bi, bj, sz⟩ := m
  simp only at hd hb
  subst hd
  unfold extendLeft
  show extendRight s s s.length s.length (extendLeftGo s s 0 0 bi ⟨bi, bi, sz⟩) = _
  rw [extendLeftGo_diag s bi sz]
  unfold extendRight
  show extendRightGo s s s.length s.length (s.length - (0 + (sz + bi))) ⟨0, 0, sz + bi⟩ = _
  exact extendRightGo_diag s s.length _ _ (by omega) (by omega)

theorem find_longest_match_self (s : List Char) :
    find_longest_match s s 0 s.length 0 s.length = ⟨0, 0, s.length⟩ := by
  unfold find_longest_match
  have hscan := outerLoop_id s s.length 0 (by omega) [] ⟨0, 0, 0⟩
    (by intro j v hv; simp [List.lookup] at hv) (by omega) rfl (by omega)
  have hinv : BestInv 0 s.length 0 s.length
      (outerLoop s s 0 s.length (List.range' 0 (s.length - 0)) [] ⟨0, 0, 0⟩) := by
    apply outerLoop_ok s s (List.range' 0 (s.length - 0))
    · exact List.pairwise_lt_range' 0 (s.length - 0) 1
    · intro i hi
      rw [List.mem_range'_1] at hi
      omega
    · exact rowOK_nil 0 s.length 0
    · intro i _; omega
    · exact ⟨fun _ => rfl, fun h => by simp at h⟩
  rw [show s.length - 0 = s.length from rfl] at hinv ⊢
  apply extend_diag
  · exact hscan.1
  · rcases Nat.eq_zero_or_pos
        (outerLoop s s 0 s.length (List.range' 0 s.length) [] (⟨0, 0, 0⟩ : BestM)).size
      with h0 | h0
    · rw [hinv.1 h0]
      simp
    · have := (hinv.2 h0).2.1
      omega

theorem matchTotal_self (s : List Char) : matchTotal s s = s.length := by
  unfold matchTotal
  cases hn : s.length with
  | zero => simp [matchTotalF]
  | succ n =>
    have hf := find_longest_match_self s
    rw [hn] at hf
    simp only [matchTotalF, hf]
    norm_num

theorem ratioQ_self (s : List Char) : ratioQ s s = 1 := by
  rw [ratioQ_eq_div, matchTotal_self]
  split
  · rfl
  · next h =>
    have hl : ((s.length + s.length : Nat) : ℚ) ≠ 0 := by
      have : 0 < s.length + s.length := by omega
      positivity
    rw [div_eq_one_iff_eq hl]
    push_cast
    ring

end Difflib

/-! ### services/faq.py -/

namespace FAQHandler

/-- The score `find_similar_question` computes for one FAQ entry:
`SequenceMatcher(None, target, str(faq.get("question", "")).lower()).ratio()`,
where `target` is the already lower-cased and stripped user input.  Note that
only the user-input side is stripped; the stored question is only
lower-cased. -/
def entryScore (target : String) (faq : Dict) : ℚ :=
  Difflib.ratioQ target.data (pyLower (pyGetD faq "question" "")).data

/-- The loop of `find_similar_question`: track
`(most_similar_question, best_answer, highest_similarity)`, updating on a
strictly greater score (`sim > highest_similarity`), so the first entry
attaining the maximum wins. -/
def findLoop (target : String) :
    List Dict → Option String × Option String × ℚ → Option String × Option String × ℚ
  | [], acc => acc
  | faq :: rest, (mq, ba, hi) =>
    let sim := entryScore target faq
    if hi < sim then findLoop target rest (pyGet faq "question", pyGet faq "answer", sim)
    else findLoop target rest (mq, ba, hi)

/-- `FAQHandler.find_similar_question(user_input, threshold)`: linear scan of
the FAQ list; return the tracked pair when `highest_similarity >= threshold`,
else `(None, None)`. -/
def find_similar_question (faq_list : List Dict) (user_input : String)
    (threshold : ℚ) : Option String × Option String :=
  let target := pyStrip (pyLower user_input)
  let r := findLoop target faq_list (none, none, 0)
  if threshold ≤ r.2.2 then (r.1, r.2.1) else (none, none)

/-- The maximum entry score over the list, floored at the loop's initial
`highest_similarity = 0.0` (scores are nonnegative anyway). -/
def maxScore (faq_list : List Dict) (target : String) : ℚ :=
  faq_list.foldl (fun h faq => max h (entryScore target faq)) 0

/-- The Python default threshold `0.65`. -/
def defaultThreshold : ℚ := mkRat 13 20

/-- The score the matcher assigns to a (user query, stored question) pair:
only the query side is stripped, both sides are lower-cased. -/
def score (user_input question : String) : ℚ :=
  Difflib.ratioQ (pyStrip (pyLower user_input)).data (pyLower question).data

theorem entryScore_eq_score (target : String) (faq : Dict) (ui : String)
    (h : target = pyStrip (pyLower ui)) :
    entryScore target faq = score ui (pyGetD faq "question" "") := by
  rw [entryScore, score, h]

theorem le_foldl_max (target : String) :
    ∀ (l : List Dict) (h : ℚ),
      h ≤ l.foldl (fun acc faq => max acc (entryScore target faq)) h := by
  intro l
  induction l with
  | nil => intro h; simp
  | cons faq rest ih =>
    intro h
    calc h ≤ max h (entryScore target faq) := le_max_left _ _
      _ ≤ _ := ih _

theorem foldl_max_mem_le (target : String) :
    ∀ (l : List Dict) (h : ℚ) (faq : Dict), faq ∈ l →
      entryScore target faq ≤ l.foldl (fun acc faq => max acc (entryScore target faq)) h := by
  intro l
  induction l with
  | nil => intro h faq hf; simp at hf
  | cons faq0 rest ih =>
    intro h faq hf
    rcases List.mem_cons.mp hf with h' | h'
    · subst h'
      calc entryScore target faq ≤ max h (entryScore target faq) := le_max_right _ _
        _ ≤ _ := le_foldl_max target rest _
    · exact ih _ faq h'

theorem foldl_max_cases (target : String) :
    ∀ (l : List Dict) (h : ℚ),
      l.foldl (fun acc faq => max acc (entryScore target faq)) h = h ∨
        ∃ faq ∈ l, l.foldl (fun acc faq => max acc (entryScore target faq)) h
          = entryScore target faq := by
  intro l
  induction l with
  | nil => intro h; exact Or.inl rfl
  | cons faq0 rest ih =>
    intro h
    rcases ih (max h (entryScore target faq0)) with hc | hc
    · simp only [List.foldl_cons]
      rw [hc]
      rcases max_cases h (entryScore target faq0) with ⟨he, _⟩ | ⟨he, _⟩
      · exact Or.inl he
      · exact Or.inr ⟨faq0, List.mem_cons_self faq0 rest, he⟩
    · rcases hc with ⟨faq, hmem, he⟩
      exact Or.inr ⟨faq, List.mem_cons_of_mem _ hmem, he⟩

/-- Full characterization of the scan loop: the tracked maximum is the fold
of `max`, an all-dominated scan leaves the accumulator untouched, and
otherwise the selected entry is the first one attaining the final maximum
(strictly above every earlier entry's score). -/
theorem findLoop_spec (target : String) :
    ∀ (l : List Dict) (mq ba : Option String) (hi : ℚ),
      (findLoop target l (mq, ba, hi)).2.2 =
        l.foldl (fun acc faq => max acc (entryScore target faq)) hi ∧
      ((∀ faq ∈ l, entryScore target faq ≤ hi) →
        findLoop target l (mq, ba, hi) = (mq, ba, hi)) ∧
      ((∃ faq ∈ l, hi < entryScore target faq) →
        ∃ k, ∃ hk : k < l.length,
          hi < entryScore target (l.get ⟨k, hk⟩) ∧
          entryScore target (l.get ⟨k, hk⟩) = (findLoop target l (mq, ba, hi)).2.2 ∧
          (∀ m (hm : m < k), entryScore target (l.get ⟨m, lt_trans hm hk⟩)
            < entryScore target (l.get ⟨k, hk⟩)) ∧
          (findLoop target l (mq, ba, hi)).1 = pyGet (l.get ⟨k, hk⟩) "question" ∧
          (findLoop target l (mq, ba, hi)).2.1 = pyGet (l.get ⟨k, hk⟩) "answer") := by
  intro l
  induction l with
  | nil =>
    intro mq ba hi
    refine ⟨rfl, fun _ => rfl, fun hex => ?_⟩
    rcases hex with ⟨faq, hmem, _⟩
    simp at hmem
  | cons faq rest ih =>
    intro mq ba hi
    by_cases hlt : hi < entryScore target faq
    · have hstep : findLoop target (faq :: rest) (mq, ba, hi) =
          findLoop target rest (pyGet faq "question", pyGet faq "answer",
            entryScore target faq) := by
        simp only [findLoop, if_pos hlt]
      have ihs := ih (pyGet faq "question") (pyGet faq "answer") (entryScore target faq)
      have hmax : max hi (entryScore target faq) = entryScore target faq :=
        max_eq_right (le_of_lt hlt)
      refine ⟨?_, ?_, ?_⟩
      · rw [hstep, ihs.1]
        simp only [List.foldl_cons, hmax]
      · intro hall
        exact absurd (hall faq (List.mem_cons_self faq rest)) (not_le.mpr hlt)
      · intro _
        by_cases hall : ∀ f' ∈ rest, entryScore target f' ≤ entryScore target faq
        · refine ⟨0, by simp, ?_, ?_, ?_, ?_, ?_⟩
          · simpa using hlt
          · rw [hstep, ihs.2.1 hall]
            rfl
          · intro m hm; omega
          · rw [hstep, ihs.2.1 hall]
            rfl
          · rw [hstep, ihs.2.1 hall]
            rfl
        · push_neg at hall
          rcases hall with ⟨f', hf', hsc⟩
          rcases ihs.2.2 ⟨f', hf', hsc⟩ with ⟨k, hk, hgt, heq, hfirst, hq, ha⟩
          refine ⟨k + 1, by simpa using Nat.succ_lt_succ hk, ?_, ?_, ?_, ?_, ?_⟩
          · show hi < entryScore target (rest.get ⟨k, hk⟩)
            exact lt_trans hlt hgt
          · show entryScore target (rest.get ⟨k, hk⟩) = _
            rw [hstep]
            exact heq
          · intro m hm
            cases m with
            | zero =>
              show entryScore target faq < entryScore target (rest.get ⟨k, hk⟩)
              exact hgt
            | succ m =>
              have hm' : m < k := by omega
              show entryScore target (rest.get ⟨m, _⟩)
                < entryScore target (rest.get ⟨k, hk⟩)
              exact hfirst m hm'
          · rw [hstep]
            exact hq
          · rw [hstep]
            exact ha
    · have hstep : findLoop target (faq :: rest) (mq, ba, hi) =
          findLoop target rest (mq, ba, hi) := by
        simp only [findLoop, if_neg hlt]
      have ihs := ih mq ba hi
      have hmax : max hi (entryScore target faq) = hi := max_eq_left (not_lt.mp hlt)
      refine ⟨?_, ?_, ?_⟩
      · rw [hstep, ihs.1]
        simp only [List.foldl_cons, hmax]
      · intro hall
        rw [hstep]
        exact ihs.2.1 (fun f' hf' => hall f' (List.mem_cons_of_mem _ hf'))
      · intro hex
        rcases hex with ⟨f', hf', hsc⟩
        have hf'r : f' ∈ rest := by
          rcases List.mem_cons.mp hf' with h' | h'
          · subst h'; exact absurd hsc hlt
          · exact h'
        rcases ihs.2.2 ⟨f', hf'r, hsc⟩ with ⟨k, hk, hgt, heq, hfirst, hq, ha⟩
        refine ⟨k + 1, by simpa using Nat.succ_lt_succ hk, ?_, ?_, ?_, ?_, ?_⟩
        · show hi < entryScore target (rest.get ⟨k, hk⟩)
          exact hgt
        · show entryScore target (rest.get ⟨k, hk⟩) = _
          rw [hstep]
          exact heq
        · intro m hm
          cases m with
          | zero =>
            show entryScore target faq < entryScore target (rest.get ⟨k, hk⟩)
            exact lt_of_le_of_lt (not_lt.mp hlt) hgt
          | succ m =>
            have hm' : m < k := by omega
            show entryScore target (rest.get ⟨m, _⟩)
              < entryScore target (rest.get ⟨k, hk⟩)
            exact hfirst m hm'
        · rw [hstep]
          exact hq
        · rw [hstep]
          exact ha

/-- What `find_similar_question` returns, for a positive threshold: nothing
below the maximum score, and the first maximum-attaining entry's stored pair
at or above it. -/
theorem find_characterize (l : List Dict) (ui : String) (t : ℚ) (ht : 0 < t) :
    (maxScore l (pyStrip (pyLower ui)) < t → find_similar_question l ui t = (none, none)) ∧
      (t ≤ maxScore l (pyStrip (pyLower ui)) → ∃ k, ∃ hk : k < l.length,
        entryScore (pyStrip (pyLower ui)) (l.get ⟨k, hk⟩) = maxScore l (pyStrip (pyLower ui)) ∧
        (∀ m (hm : m < k), entryScore (pyStrip (pyLower ui)) (l.get ⟨m, lt_trans hm hk⟩)
          < maxScore l (pyStrip (pyLower ui))) ∧
        find_similar_question l ui t =
          (pyGet (l.get ⟨k, hk⟩) "question", pyGet (l.get ⟨k, hk⟩) "answer")) := by
  have hspec := findLoop_spec (pyStrip (pyLower ui)) l none none 0
  have hmax : (findLoop (pyStrip (pyLower ui)) l (none, none, 0)).2.2
      = maxScore l (pyStrip (pyLower ui)) := hspec.1
  constructor
  · intro hlt
    unfold find_similar_question
    rw [if_neg (by rw [hmax]; exact not_le.mpr hlt)]
  · intro hge
    have hpos : ∃ faq ∈ l, (0 : ℚ) < entryScore (pyStrip (pyLower ui)) faq := by
      rcases foldl_max_cases (pyStrip (pyLower ui)) l 0 with hc | hc
      · exfalso
        have : maxScore l (pyStrip (pyLower ui)) = 0 := hc
        rw [this] at hge
        exact absurd (lt_of_lt_of_le ht hge) (lt_irrefl 0)
      · rcases hc with ⟨faq, hmem, he⟩
        refine ⟨faq, hmem, ?_⟩
        have : maxScore l (pyStrip (pyLower ui)) = entryScore (pyStrip (pyLower ui)) faq := he
        rw [this] at hge
        exact lt_of_lt_of_le ht hge
    rcases hspec.2.2 hpos with ⟨k, hk, _, heq, hfirst, hq, ha⟩
    refine ⟨k, hk, by rw [heq, hmax], ?_, ?_⟩
    · intro m hm
      exact lt_of_lt_of_eq (hfirst m hm) (by rw [heq, hmax])
    · unfold find_similar_question
      rw [if_pos (by rw [hmax]; exact hge)]
      rw [hq, ha]

end FAQHandler

/-! ### services/agentic_ai.py -/

/-- Outcome of one `chat_session.send_message(prompt)` call against the remote
model, an external collaborator: either it returns a response whose text
payload may be missing/`None` (`ok none`) or empty (`ok (some "")`), or it
raises an exception carrying message `msg`. -/
inductive RemoteResult where
  | ok (text : Option String)
  | err (msg : String)
deriving DecidableEq, Repr

/-- Python truthiness of the guarded payload check
`response and hasattr(response, "text") and response.text`: true exactly for
a present, non-empty text. -/
def truthyText : Option String → Bool
  | none => false
  | some s => s ≠ ""

/-- The mutable state of an `AgenticAI` instance: the current remote chat
session handle plus a counter from which `model.start_chat()` draws fresh
handles, so a new handle is always distinct from every earlier one
(modelling fresh object identity). -/
structure AgentState where
  chat_session : Nat
  next_handle : Nat
deriving DecidableEq, Repr

/-- Handles drawn from the counter stay below it. -/
def AgentState.WF (st : AgentState) : Prop :=
  st.chat_session < st.next_handle

/-- State after `_configure_ai` ran in `__init__`: one `start_chat()` call. -/
def configuredAgent : AgentState := ⟨0, 1⟩

/-- `AgenticAI.reset`: `self.chat_session = self.model.start_chat()`. -/
def AgenticAI.reset (st : AgentState) : AgentState :=
  ⟨st.next_handle, st.next_handle + 1⟩

/-- `AgenticAI._build_prompt(user_input, input_language)`.  The rendered FAQ
and personal context (`str` of Python objects held in `self.context`) are
parameters. -/
def build_prompt (faqCtx personalCtx : String) (user_input : String)
    (input_language : String) : String :=
  "Based on Tanvir Anzum's profile and expertise, answer the following question.\n"
    ++ "FAQ Context: " ++ faqCtx ++ "\n"
    ++ "Personal Context: " ++ personalCtx ++ "\n"
    ++ "Detected Language: " ++ input_language ++ "\n"
    ++ "User Input: " ++ user_input ++ "\n\n"
    ++ "Act as an AI version of Tanvir Anzum and respond in a simple, concise, and conversational manner, "
    ++ "like a human chat, while maintaining professionalism and the given context. "
    ++ "If relevant, you may include links to Tanvir's work or projects."

/-- The prompt `generate_response` builds before its first call; the
`langdetect`-based `_detect_language` is an external collaborator, modelled
as a total function (its `LangDetectException` handler already makes the
Python helper total, returning "unknown"). -/
def promptOf (detect : String → String) (faqCtx personalCtx user_input : String) : String :=
  build_prompt faqCtx personalCtx user_input (detect user_input)

/-- What a `generate_response` call produced: the string handed back to the
caller, the agent state afterwards, and the ordered trace of
`send_message` calls as (session handle, prompt) pairs. -/
structure GenResult where
  reply : String
  agent : AgentState
  calls : List (Nat × String)
deriving DecidableEq, Repr

/-- The fixed fallback string of `generate_response`. -/
def fallbackReply : String := "🤖 Sorry, I couldn't generate a response."

/-- The `except` clause of `generate_response`: `f"⚠️ Error: {e}"`. -/
def errorReply (e : String) : String := "⚠️ Error: " ++ e

/-- `AgenticAI.generate_response(user_input)`.  The remote boundary is the
oracle `service`; a raised exception at either call site is caught by the
enclosing `try/except` and converted into `errorReply` (so the function is
total and never propagates an exception).  An empty/missing payload on the
first call triggers exactly one retry after `reset`, with the identical
prompt; non-empty text is returned stripped. -/
def generate_response (service : Nat → String → RemoteResult)
    (detect : String → String) (faqCtx personalCtx : String)
    (st : AgentState) (user_input : String) : GenResult :=
  let prompt := promptOf detect faqCtx personalCtx user_input
  match service st.chat_session prompt with
  | .err e => ⟨errorReply e, st, [(st.chat_session, prompt)]⟩
  | .ok t =>
    if truthyText t then
      ⟨pyStrip (t.getD ""), st, [(st.chat_session, prompt)]⟩
    else
      let st2 := AgenticAI.reset st
      match service st2.chat_session prompt with
      | .err e => ⟨errorReply e, st2, [(st.chat_session, prompt), (st2.chat_session, prompt)]⟩
      | .ok t2 =>
        if truthyText t2 then
          ⟨pyStrip (t2.getD ""), st2, [(st.chat_session, prompt), (st2.chat_session, prompt)]⟩
        else
          ⟨fallbackReply, st2, [(st.chat_session, prompt), (st2.chat_session, prompt)]⟩

/-! ### ui/chat.py -/

/-- `_process_user_query(user_query, faq_handler, agent)`: ask the FAQ router
first (default threshold); on a truthy answer format the FAQ citation and
never touch the remote model, else delegate to `generate_response`. -/
def process_user_query (faq_list : List Dict)
    (service : Nat → String → RemoteResult) (detect : String → String)
    (faqCtx personalCtx : String) (st : AgentState) (user_query : String) : GenResult :=
  let qa := FAQHandler.find_similar_question faq_list user_query FAQHandler.defaultThreshold
  if truthyText qa.2 then
    ⟨"🔍 **FAQ Match:** *" ++ pyStr qa.1 ++ "*\n\n" ++ qa.2.getD "", st, []⟩
  else
    generate_response service detect faqCtx personalCtx st user_query

/-- One turn of `render_chat` after the user submitted `user_query`: process
the query and append `{"user_query": ..., "bot_response": ...}` to
`st.session_state.chat_history`. -/
def handle_turn (faq_list : List Dict)
    (service : Nat → String → RemoteResult) (detect : String → String)
    (faqCtx personalCtx : String) (hist : List Dict) (st : AgentState)
    (user_query : String) : List Dict × GenResult :=
  let g := process_user_query faq_list service detect faqCtx personalCtx st user_query
  (hist ++ [[("user_query", user_query), ("bot_response", g.reply)]], g)

/-- The per-session UI state `render_chat` touches: the transcript and the
value of the `overall_feedback` radio widget. -/
structure SessionUI where
  chat_history : List Dict
  overall_feedback : Option String
deriving DecidableEq, Repr

/-- The feedback radio of `render_chat`: selecting a value stores it in
`st.session_state` under the widget key `overall_feedback` and logs it; the
transcript itself is not touched. -/
def record_overall_feedback (value : String) (s : SessionUI) : SessionUI :=
  { s with overall_feedback := some value }

/-- The "Start Over" button handler of `render_chat`:
`st.session_state.chat_history = []` then `agent.reset()`, one atomic step
from the caller's perspective (both effects are in the single returned
state). -/
def start_over (_hist : List Dict) (st : AgentState) : List Dict × AgentState :=
  ([], AgenticAI.reset st)

/-! ### ui/faq_view.py -/

/-- The fixed preferred category sequence of `render_faq_tabs`. -/
def DESIRED_ORDER : List String :=
  ["Experience", "Education", "Research", "Work", "Technologies",
   "Skills", "Projects", "Certificates", "Consulting"]

/-- `faq.get("category", "General")`. -/
def catOf (faq : Dict) : String :=
  pyGetD faq "category" "General"

/-- `sorted({faq.get("category", "General") for faq in faq_data})`: the set
of categories, sorted ascending (Python's lexicographic code-point order,
which is Lean's `String` order). -/
def existing_categories (faq_data : List Dict) : List String :=
  ((faq_data.map catOf).dedup).insertionSort (· ≤ ·)

/-- The category-tab sequence `render_faq_tabs` builds (empty input renders
an info box and no tabs): preferred categories present in the data first, in
preferred order, then the remaining present categories in sorted order. -/
def render_faq_tabs_categories (faq_data : List Dict) : List String :=
  if faq_data = [] then []
  else
    let existing := existing_categories faq_data
    DESIRED_ORDER.filter (fun c => c ∈ existing)
      ++ existing.filter (fun c => c ∉ DESIRED_ORDER)

/-! ### Claims -/

/-- C1: for every user query for which the FAQ router returns a match (a
stored question together with a stored non-empty answer — stored answers are
non-empty by the startup contract of the configuration loader), the
orchestration step `_process_user_query` never invokes the remote model (its
call trace is empty and the agent state is untouched), and the returned
bot response is the explicit FAQ-match indicator surfacing the matched
question, followed by the stored answer verbatim. -/
theorem c1_faq_match_never_calls_model
    (faq_list : List Dict) (service : Nat → String → RemoteResult)
    (detect : String → String) (faqCtx personalCtx : String)
    (st : AgentState) (user_query : String) (q a : String)
    (hmatch : FAQHandler.find_similar_question faq_list user_query
      FAQHandler.defaultThreshold = (some q, some a))
    (hne : a ≠ "") :
    process_user_query faq_list service detect faqCtx personalCtx st user_query =
      ⟨"🔍 **FAQ Match:** *" ++ q ++ "*\n\n" ++ a, st, []⟩ := by
  unfold process_user_query
  rw [hmatch]
  have htr : truthyText (some q, some a).2 = true := by
    simp [truthyText, hne]
  rw [if_pos htr]
  simp [pyStr]

/-- C1 witness: a concrete FAQ list and query on the FAQ fast path. -/
theorem c1_witness :
    FAQHandler.find_similar_question [[("question", "hey"), ("answer", "yo")]] "hey"
        FAQHandler.defaultThreshold = (some "hey", some "yo") ∧
    process_user_query [[("question", "hey"), ("answer", "yo")]]
      (fun _ _ => RemoteResult.err "boom") (fun _ => "en") "F" "P" configuredAgent "hey" =
      ⟨"🔍 **FAQ Match:** *hey*\n\nyo", configuredAgent, []⟩ :=
  ⟨by decide,
    c1_faq_match_never_calls_model _ _ _ _ _ _ _ "hey" "yo" (by decide) (by decide)⟩

/-- C2: on a successful first call whose payload is empty or missing,
`generate_response` performs exactly one retry: its call trace is exactly two
sends, the second on a freshly created handle distinct from the first,
carrying the identical prompt.  If the retry also yields empty text the fixed
fallback string is returned; a call yielding non-empty text has that text
returned trimmed of whitespace (on the no-retry fast path the trace is one
send). -/
theorem c2_retry_once_on_empty
    (service : Nat → String → RemoteResult) (detect : String → String)
    (faqCtx personalCtx : String) (st : AgentState) (user_input : String)
    (hwf : st.WF) :
    (∀ t, service st.chat_session (promptOf detect faqCtx personalCtx user_input)
        = RemoteResult.ok t → truthyText t = false →
      (generate_response service detect faqCtx personalCtx st user_input).calls =
        [(st.chat_session, promptOf detect faqCtx personalCtx user_input),
         ((AgenticAI.reset st).chat_session, promptOf detect faqCtx personalCtx user_input)] ∧
      (AgenticAI.reset st).chat_session ≠ st.chat_session ∧
      (∀ t2, service (AgenticAI.reset st).chat_session
          (promptOf detect faqCtx personalCtx user_input) = RemoteResult.ok t2 →
        truthyText t2 = false →
        (generate_response service detect faqCtx personalCtx st user_input).reply
          = fallbackReply) ∧
      (∀ s2, service (AgenticAI.reset st).chat_session
          (promptOf detect faqCtx personalCtx user_input) = RemoteResult.ok (some s2) →
        s2 ≠ "" →
        (generate_response service detect faqCtx personalCtx st user_input).reply
          = pyStrip s2)) ∧
    (∀ s, service st.chat_session (promptOf detect faqCtx personalCtx user_input)
        = RemoteResult.ok (some s) → s ≠ "" →
      (generate_response service detect faqCtx personalCtx st user_input).reply = pyStrip s ∧
      (generate_response service detect faqCtx personalCtx st user_input).calls =
        [(st.chat_session, promptOf detect faqCtx personalCtx user_input)]) := by
  constructor
  · intro t hfirst hempty
    refine ⟨?_, ?_, ?_, ?_⟩
    · cases h2 : service (AgenticAI.reset st).chat_session
          (promptOf detect faqCtx personalCtx user_input) with
      | err e => simp [generate_response, hfirst, hempty, h2]
      | ok t2 =>
        by_cases ht2 : truthyText t2 = true
        · simp [generate_response, hfirst, hempty, h2, ht2]
        · simp [generate_response, hfirst, hempty, h2, eq_false_of_ne_true ht2]
    · unfold AgenticAI.reset AgentState.WF at *
      simp only
      omega
    · intro t2 hretry hempty2
      simp [generate_response, hfirst, hempty, hretry, hempty2]
    · intro s2 hretry hne2
      have ht2 : truthyText (some s2) = true := by simp [truthyText, hne2]
      simp [generate_response, hfirst, hempty, hretry, ht2]
  · intro s hfirst hne
    have htr : truthyText (some s) = true := by simp [truthyText, hne]
    constructor
    · simp [generate_response, hfirst, htr]
    · simp [generate_response, hfirst, htr]

/-- C2 witness: a service that returns an empty payload on the first handle
and padded text on the fresh handle. -/
theorem c2_witness :
    configuredAgent.WF ∧
    (generate_response
        (fun h _ => if h = 0 then RemoteResult.ok (some "") else RemoteResult.ok (some "  hello  "))
        (fun _ => "en") "F" "P" configuredAgent "hey").reply = "hello" ∧
    (generate_response
        (fun h _ => if h = 0 then RemoteResult.ok (some "") else RemoteResult.ok (some "  hello  "))
        (fun _ => "en") "F" "P" configuredAgent "hey").calls =
      [(0, promptOf (fun _ => "en") "F" "P" "hey"),
       (1, promptOf (fun _ => "en") "F" "P" "hey")] := by
  have h := c2_retry_once_on_empty
    (fun h _ => if h = 0 then RemoteResult.ok (some "") else RemoteResult.ok (some "  hello  "))
    (fun _ => "en") "F" "P" configuredAgent "hey" Nat.zero_lt_one
  have h1 := h.1 (some "") rfl rfl
  refine ⟨Nat.zero_lt_one, ?_, h1.1⟩
  have := h1.2.2.2 "  hello  " rfl (by decide)
  rw [this]
  decide

/-- C3: `generate_response` never raises to its caller: it is a total
function whose reply is always one of the three user-visible strings (a
distinctly prefixed error diagnostic, trimmed model text, or the fixed
fallback).  A transport error on the first call is converted into the
prefixed diagnostic with no retry (the call trace stays at one send), and an
error raised during the retry is likewise caught and converted. -/
theorem c3_never_raises
    (service : Nat → String → RemoteResult) (detect : String → String)
    (faqCtx personalCtx : String) (st : AgentState) (user_input : String) :
    ((∃ e, (generate_response service detect faqCtx personalCtx st user_input).reply
        = errorReply e) ∨
      (∃ s, (generate_response service detect faqCtx personalCtx st user_input).reply
        = pyStrip s) ∨
      (generate_response service detect faqCtx personalCtx st user_input).reply
        = fallbackReply) ∧
    (∀ e, service st.chat_session (promptOf detect faqCtx personalCtx user_input)
        = RemoteResult.err e →
      generate_response service detect faqCtx personalCtx st user_input =
        ⟨errorReply e, st,
          [(st.chat_session, promptOf detect faqCtx personalCtx user_input)]⟩) ∧
    (∀ t e, service st.chat_session (promptOf detect faqCtx personalCtx user_input)
        = RemoteResult.ok t → truthyText t = false →
      service (AgenticAI.reset st).chat_session
          (promptOf detect faqCtx personalCtx user_input) = RemoteResult.err e →
      generate_response service detect faqCtx personalCtx st user_input =
        ⟨errorReply e, AgenticAI.reset st,
          [(st.chat_session, promptOf detect faqCtx personalCtx user_input),
           ((AgenticAI.reset st).chat_session,
             promptOf detect faqCtx personalCtx user_input)]⟩) := by
  refine ⟨?_, ?_, ?_⟩
  · cases h1 : service st.chat_session (promptOf detect faqCtx personalCtx user_input) with
    | err e => exact Or.inl ⟨e, by simp [generate_response, h1]⟩
    | ok t =>
      by_cases ht : truthyText t = true
      · exact Or.inr (Or.inl ⟨t.getD "", by simp [generate_response, h1, ht]⟩)
      · have ht' := eq_false_of_ne_true ht
        cases h2 : service (AgenticAI.reset st).chat_session
            (promptOf detect faqCtx personalCtx user_input) with
        | err e => exact Or.inl ⟨e, by simp [generate_response, h1, ht', h2]⟩
        | ok t2 =>
          by_cases ht2 : truthyText t2 = true
          · exact Or.inr (Or.inl ⟨t2.getD "", by simp [generate_response, h1, ht', h2, ht2]⟩)
          · exact Or.inr (Or.inr
              (by simp [generate_response, h1, ht', h2, eq_false_of_ne_true ht2]))
  · intro e h1
    simp [generate_response, h1]
  · intro t e h1 ht h2
    simp [generate_response, h1, ht, h2]

/-- C3 witness: a service that raises on every call. -/
theorem c3_witness :
    ((∃ e, (generate_response (fun _ _ => RemoteResult.err "boom") (fun _ => "en")
        "F" "P" configuredAgent "hey").reply = errorReply e) ∨
      (∃ s, (generate_response (fun _ _ => RemoteResult.err "boom") (fun _ => "en")
        "F" "P" configuredAgent "hey").reply = pyStrip s) ∨
      (generate_response (fun _ _ => RemoteResult.err "boom") (fun _ => "en")
        "F" "P" configuredAgent "hey").reply = fallbackReply) ∧
    generate_response (fun _ _ => RemoteResult.err "boom") (fun _ => "en")
        "F" "P" configuredAgent "hey" =
      ⟨"⚠️ Error: boom", configuredAgent,
        [(0, promptOf (fun _ => "en") "F" "P" "hey")]⟩ := by
  have h := c3_never_raises (fun _ _ => RemoteResult.err "boom") (fun _ => "en")
    "F" "P" configuredAgent "hey"
  exact ⟨h.1, h.2.1 "boom" rfl⟩

/-- C4: `find_similar_question` scores the entries in list order (modelled
by the scan loop) and, when two or more entries tie for the maximum score
and a match is returned (positive threshold not above the maximum), the
returned pair is that of the first entry attaining the maximum — an entry at
or before the first of the tied indices, with every earlier entry scoring
strictly below the maximum. -/
theorem c4_first_tied_entry_wins
    (l : List Dict) (ui : String) (t : ℚ) (i j : Nat) (hj : j < l.length)
    (hij : i < j) (ht : 0 < t)
    (hle : t ≤ FAQHandler.maxScore l (pyStrip (pyLower ui)))
    (hsi : FAQHandler.entryScore (pyStrip (pyLower ui)) (l.get ⟨i, lt_trans hij hj⟩)
      = FAQHandler.maxScore l (pyStrip (pyLower ui)))
    (_hsj : FAQHandler.entryScore (pyStrip (pyLower ui)) (l.get ⟨j, hj⟩)
      = FAQHandler.maxScore l (pyStrip (pyLower ui))) :
    ∃ k, ∃ hk : k < l.length, k ≤ i ∧
      FAQHandler.entryScore (pyStrip (pyLower ui)) (l.get ⟨k, hk⟩)
        = FAQHandler.maxScore l (pyStrip (pyLower ui)) ∧
      (∀ m (hm : m < k), FAQHandler.entryScore (pyStrip (pyLower ui))
        (l.get ⟨m, lt_trans hm hk⟩) < FAQHandler.maxScore l (pyStrip (pyLower ui))) ∧
      FAQHandler.find_similar_question l ui t =
        (pyGet (l.get ⟨k, hk⟩) "question", pyGet (l.get ⟨k, hk⟩) "answer") := by
  rcases (FAQHandler.find_characterize l ui t ht).2 hle with ⟨k, hk, hke, hfirst, hfind⟩
  refine ⟨k, hk, ?_, hke, hfirst, hfind⟩
  by_contra hik
  push_neg at hik
  exact absurd hsi (ne_of_lt (hfirst i hik))

/-- C4 witness: two entries tied at score 1 on the query; the first wins. -/
theorem c4_witness :
    (0 : ℚ) < FAQHandler.defaultThreshold ∧
    (∃ k, ∃ hk : k < ([[("question", "hi"), ("answer", "first")],
        [("question", "hi"), ("answer", "second")]] : List Dict).length, k ≤ 0 ∧
      FAQHandler.entryScore (pyStrip (pyLower "hi"))
          (([[("question", "hi"), ("answer", "first")],
            [("question", "hi"), ("answer", "second")]] : List Dict).get ⟨k, hk⟩)
        = FAQHandler.maxScore [[("question", "hi"), ("answer", "first")],
            [("question", "hi"), ("answer", "second")]] (pyStrip (pyLower "hi")) ∧
      (∀ m (hm : m < k), FAQHandler.entryScore (pyStrip (pyLower "hi"))
          (([[("question", "hi"), ("answer", "first")],
            [("question", "hi"), ("answer", "second")]] : List Dict).get ⟨m, lt_trans hm hk⟩)
        < FAQHandler.maxScore [[("question", "hi"), ("answer", "first")],
            [("question", "hi"), ("answer", "second")]] (pyStrip (pyLower "hi"))) ∧
      FAQHandler.find_similar_question [[("question", "hi"), ("answer", "first")],
          [("question", "hi"), ("answer", "second")]] "hi" FAQHandler.defaultThreshold =
        (pyGet (([[("question", "hi"), ("answer", "first")],
            [("question", "hi"), ("answer", "second")]] : List Dict).get ⟨k, hk⟩) "question",
         pyGet (([[("question", "hi"), ("answer", "first")],
            [("question", "hi"), ("answer", "second")]] : List Dict).get ⟨k, hk⟩) "answer")) := by
  refine ⟨by decide, ?_⟩
  exact c4_first_tied_entry_wins _ "hi" FAQHandler.defaultThreshold 0 1 (by decide)
    (by decide) (by decide) (by decide) (by decide) (by decide)

/-- C5 counterexample: at threshold `0` (the claim quantifies over every
threshold) with a query scoring `0` against the single entry, the maximum
score (`0`) is at or above the threshold, yet the function returns
`(None, None)` instead of the best entry's stored pair: the loop only adopts
an entry on a strictly positive score. -/
theorem c5_counterexample :
    FAQHandler.maxScore [[("question", "a"), ("answer", "b")]] (pyStrip (pyLower "")) = 0 ∧
    ((0 : ℚ) ≤ FAQHandler.maxScore [[("question", "a"), ("answer", "b")]]
      (pyStrip (pyLower ""))) ∧
    FAQHandler.find_similar_question [[("question", "a"), ("answer", "b")]] "" 0
      = (none, none) ∧
    FAQHandler.find_similar_question [[("question", "a"), ("answer", "b")]] "" 0
      ≠ (some "a", some "b") := by
  refine ⟨by decide, by decide, by decide, by decide⟩

/-- C5 (amended): for every query and every *positive* threshold,
`find_similar_question` returns the first maximum-attaining entry's stored
`(question, answer)` pair when the maximum score reaches the threshold, and
the no-match outcome `(None, None)` — a normal result, not an error — when
it does not. -/
theorem c5_threshold_match
    (l : List Dict) (ui : String) (t : ℚ) (ht : 0 < t) :
    (FAQHandler.maxScore l (pyStrip (pyLower ui)) < t →
      FAQHandler.find_similar_question l ui t = (none, none)) ∧
    (t ≤ FAQHandler.maxScore l (pyStrip (pyLower ui)) →
      ∃ k, ∃ hk : k < l.length,
        FAQHandler.entryScore (pyStrip (pyLower ui)) (l.get ⟨k, hk⟩)
          = FAQHandler.maxScore l (pyStrip (pyLower ui)) ∧
        (∀ m (hm : m < k), FAQHandler.entryScore (pyStrip (pyLower ui))
          (l.get ⟨m, lt_trans hm hk⟩) < FAQHandler.maxScore l (pyStrip (pyLower ui))) ∧
        FAQHandler.find_similar_question l ui t =
          (pyGet (l.get ⟨k, hk⟩) "question", pyGet (l.get ⟨k, hk⟩) "answer")) :=
  FAQHandler.find_characterize l ui t ht

/-- C5 witness: one query above and one below the default threshold. -/
theorem c5_witness :
    (0 : ℚ) < FAQHandler.defaultThreshold ∧
    (FAQHandler.maxScore [[("question", "hey"), ("answer", "yo")]] (pyStrip (pyLower "zzz"))
      < FAQHandler.defaultThreshold) ∧
    FAQHandler.find_similar_question [[("question", "hey"), ("answer", "yo")]] "zzz"
      FAQHandler.defaultThreshold = (none, none) := by
  refine ⟨by decide, by decide, ?_⟩
  exact (c5_threshold_match [[("question", "hey"), ("answer", "yo")]] "zzz"
    FAQHandler.defaultThreshold (by decide)).1 (by decide)

/-- C6 counterexample: the matcher strips whitespace only on the query side,
so a pair that is identical after lower-casing and trimming *both* sides can
score below `1.0`, and the score is not symmetric — both for pairs differing
only in surrounding whitespace and (inherently, from `SequenceMatcher`'s
best-block search) for plain whitespace-free strings. -/
theorem c6_counterexample :
    pyStrip (pyLower "hi") = pyStrip (pyLower "hi ") ∧
    FAQHandler.score "hi" "hi " ≠ 1 ∧
    FAQHandler.score "hi" "hi " ≠ FAQHandler.score "hi " "hi" ∧
    FAQHandler.score "aba" "babba" ≠ FAQHandler.score "babba" "aba" := by
  refine ⟨by decide, by decide, by decide, by decide⟩

/-- C6 (amended): the similarity score as computed by the matcher always
lies in `[0, 1]`, and equals `1.0` for every pair whose lower-cased,
query-side-trimmed form agrees with the lower-cased question (in particular
for any string scored against itself after normalization); symmetry does not
hold in general and is dropped. -/
theorem c6_score_bounds_and_identity (x y : String) :
    0 ≤ FAQHandler.score x y ∧ FAQHandler.score x y ≤ 1 ∧
      (pyStrip (pyLower x) = pyLower y → FAQHandler.score x y = 1) := by
  refine ⟨Difflib.ratioQ_nonneg _ _, Difflib.ratioQ_le_one _ _, fun h => ?_⟩
  unfold FAQHandler.score
  rw [h]
  exact Difflib.ratioQ_self (pyLower y).data

/-- C6 witness: a padded, capitalized query against its normal form. -/
theorem c6_witness :
    pyStrip (pyLower " Hi ") = pyLower "hi" ∧
    0 ≤ FAQHandler.score " Hi " "hi" ∧ FAQHandler.score " Hi " "hi" = 1 :=
  ⟨by decide, (c6_score_bounds_and_identity " Hi " "hi").1,
    (c6_score_bounds_and_identity " Hi " "hi").2.2 (by decide)⟩

/-- C7: the "Start Over" handler is a single state transition whose result
exhibits both effects at once: the transcript component of the returned
state is empty and the agent component holds a freshly created remote
session handle distinct from the prior one (fresh handles come from the
counter, which stays ahead of every issued handle). -/
theorem c7_reset_session (hist : List Dict) (st : AgentState) (hwf : st.WF) :
    (start_over hist st).1 = [] ∧
    (start_over hist st).2.chat_session ≠ st.chat_session ∧
    (start_over hist st).2.WF := by
  refine ⟨rfl, ?_, ?_⟩
  · show st.next_handle ≠ st.chat_session
    unfold AgentState.WF at hwf
    omega
  · show (AgenticAI.reset st).WF
    unfold AgentState.WF AgenticAI.reset at *
    simp only
    omega

/-- C7 witness: starting over from the freshly configured agent. -/
theorem c7_witness :
    configuredAgent.WF ∧
    (start_over [[("user_query", "q"), ("bot_response", "r")]] configuredAgent).1 = [] ∧
    (start_over [[("user_query", "q"), ("bot_response", "r")]]
      configuredAgent).2.chat_session ≠ configuredAgent.chat_session := by
  have h := c7_reset_session [[("user_query", "q"), ("bot_response", "r")]]
    configuredAgent Nat.zero_lt_one
  exact ⟨Nat.zero_lt_one, h.1, h.2.1⟩

/-- C8: the category-tab sequence contains exactly the categories present in
the data (with the `"General"` default for entries without the key), split as
a prefix of preferred categories — a subsequence of the fixed preferred
order containing every present preferred category — followed by the
remaining, unrecognized categories in ascending (alphabetical) order. -/
theorem c8_category_tab_order (faq_data : List Dict) :
    (∀ c, c ∈ render_faq_tabs_categories faq_data ↔ c ∈ faq_data.map catOf) ∧
    ∃ P R, render_faq_tabs_categories faq_data = P ++ R ∧
      P.Sublist DESIRED_ORDER ∧
      (∀ c ∈ R, c ∉ DESIRED_ORDER) ∧
      (∀ c ∈ DESIRED_ORDER, c ∈ faq_data.map catOf → c ∈ P) ∧
      R.Sorted (· ≤ ·) := by
  by_cases hemp : faq_data = []
  · subst hemp
    refine ⟨by simp [render_faq_tabs_categories], [], [], ?_, ?_, ?_, ?_, ?_⟩
    · simp [render_faq_tabs_categories]
    · exact List.nil_sublist _
    · intro c hc; simp at hc
    · intro c _ hc; simp at hc
    · exact List.sorted_nil
  · have hex : ∀ c, c ∈ existing_categories faq_data ↔ c ∈ faq_data.map catOf := by
      intro c
      unfold existing_categories
      rw [List.mem_insertionSort, List.mem_dedup]
    have hcats : render_faq_tabs_categories faq_data =
        DESIRED_ORDER.filter (fun c => c ∈ existing_categories faq_data)
          ++ (existing_categories faq_data).filter (fun c => c ∉ DESIRED_ORDER) := by
      unfold render_faq_tabs_categories
      rw [if_neg hemp]
    refine ⟨?_, DESIRED_ORDER.filter (fun c => c ∈ existing_categories faq_data),
      (existing_categories faq_data).filter (fun c => c ∉ DESIRED_ORDER),
      hcats, List.filter_sublist _, ?_, ?_, ?_⟩
    · intro c
      rw [hcats]
      simp only [List.mem_append, List.mem_filter, decide_eq_true_eq]
      constructor
      · rintro (⟨_, hc⟩ | ⟨hc, _⟩)
        · exact (hex c).mp hc
        · exact (hex c).mp hc
      · intro hc
        by_cases hd : c ∈ DESIRED_ORDER
        · exact Or.inl ⟨hd, (hex c).mpr hc⟩
        · exact Or.inr ⟨(hex c).mpr hc, by simpa using hd⟩
    · intro c hc
      rcases List.mem_filter.mp hc with ⟨_, hnd⟩
      simpa using hnd
    · intro c hcd hcm
      exact List.mem_filter.mpr ⟨hcd, by simpa using (hex c).mpr hcm⟩
    · apply List.Pairwise.filter
      exact List.sorted_insertionSort _ _

/-- C8 witness: a mixed data set with preferred, unrecognized and defaulted
categories. -/
theorem c8_witness :
    (∀ c, c ∈ render_faq_tabs_categories
        [[("category", "Zeta")], [("category", "Skills")], [("q", "x")]]
      ↔ c ∈ ([[("category", "Zeta")], [("category", "Skills")],
        [("q", "x")]] : List Dict).map catOf) ∧
    ∃ P R, render_faq_tabs_categories
        [[("category", "Zeta")], [("category", "Skills")], [("q", "x")]] = P ++ R ∧
      P.Sublist DESIRED_ORDER ∧
      (∀ c ∈ R, c ∉ DESIRED_ORDER) ∧
      (∀ c ∈ DESIRED_ORDER, c ∈ ([[("category", "Zeta")], [("category", "Skills")],
        [("q", "x")]] : List Dict).map catOf → c ∈ P) ∧
      R.Sorted (· ≤ ·) :=
  c8_category_tab_order [[("category", "Zeta")], [("category", "Skills")], [("q", "x")]]

/-- C9 counterexample: after a handled turn, recording feedback stores a
session-wide value and leaves the transcript untouched — the exchange at
position 0 has no `feedback` field at all afterwards, so feedback is not
"set on the exchange at position i" as the claim states. -/
theorem c9_counterexample :
    (record_overall_feedback "👍"
        ⟨(handle_turn [] (fun _ _ => RemoteResult.ok (some "yo")) (fun _ => "en") "F" "P"
            [] configuredAgent "hi").1, none⟩).chat_history
      = [[("user_query", "hi"), ("bot_response", "yo")]] ∧
    (((record_overall_feedback "👍"
        ⟨(handle_turn [] (fun _ _ => RemoteResult.ok (some "yo")) (fun _ => "en") "F" "P"
            [] configuredAgent "hi").1, none⟩).chat_history.headD []).lookup "feedback")
      = none := by
  constructor
  · decide
  · decide

/-- C9 (amended): recording feedback leaves every transcript exchange — its
`user_query`, `bot_response` and all other fields — entirely unchanged; the
value is stored as the single session-wide `overall_feedback` (and logged),
not attached to any transcript position. -/
theorem c9_feedback_frame (value : String) (s : SessionUI) :
    (record_overall_feedback value s).chat_history = s.chat_history ∧
    (record_overall_feedback value s).overall_feedback = some value :=
  ⟨rfl, rfl⟩

/-- C10: with a positive threshold and entries that all carry `question` and
`answer` fields, `find_similar_question` returns either `(None, None)` or
the stored pair of some entry — never a pair with exactly one component
`None`; the empty list always yields `(None, None)`. -/
theorem c10_result_shape (l : List Dict) (ui : String) (t : ℚ) (ht : 0 < t)
    (hfields : ∀ faq ∈ l, (pyGet faq "question").isSome ∧ (pyGet faq "answer").isSome) :
    (FAQHandler.find_similar_question l ui t = (none, none) ∨
      ∃ faq ∈ l, ∃ q a : String, pyGet faq "question" = some q ∧
        pyGet faq "answer" = some a ∧
        FAQHandler.find_similar_question l ui t = (some q, some a)) ∧
    (l = [] → FAQHandler.find_similar_question l ui t = (none, none)) := by
  constructor
  · by_cases hc : FAQHandler.maxScore l (pyStrip (pyLower ui)) < t
    · exact Or.inl ((FAQHandler.find_characterize l ui t ht).1 hc)
    · rcases (FAQHandler.find_characterize l ui t ht).2 (not_lt.mp hc)
        with ⟨k, hk, _, _, hfind⟩
      have hmem : l.get ⟨k, hk⟩ ∈ l := l.get_mem _ _
      rcases hfields _ hmem with ⟨hq, ha⟩
      rcases Option.isSome_iff_exists.mp hq with ⟨q, hq'⟩
      rcases Option.isSome_iff_exists.mp ha with ⟨a, ha'⟩
      refine Or.inr ⟨l.get ⟨k, hk⟩, hmem, q, a, hq', ha', ?_⟩
      rw [hfind, hq', ha']
  · intro hl
    subst hl
    simp only [FAQHandler.find_similar_question, FAQHandler.findLoop]
    split
    · rfl
    · rfl

/-- C10 witness: a two-entry list with full fields, on a non-matching and
the empty-list cases. -/
theorem c10_witness :
    (0 : ℚ) < FAQHandler.defaultThreshold ∧
    ((FAQHandler.find_similar_question [[("question", "hey"), ("answer", "yo")]] "hey"
        FAQHandler.defaultThreshold = (none, none) ∨
      ∃ faq ∈ ([[("question", "hey"), ("answer", "yo")]] : List Dict), ∃ q a : String,
        pyGet faq "question" = some q ∧ pyGet faq "answer" = some a ∧
        FAQHandler.find_similar_question [[("question", "hey"), ("answer", "yo")]] "hey"
          FAQHandler.defaultThreshold = (some q, some a))) := by
  refine ⟨by decide, ?_⟩
  exact (c10_result_shape [[("question", "hey"), ("answer", "yo")]] "hey"
    FAQHandler.defaultThreshold (by decide) (by decide)).1
